import Mathlib

/-!
Verification of the `scan_unchecked` tool (`src/main.rs`).

The tool walks a directory of Rust sources, collects every function or
`impl`-block method whose identifier contains `"unchecked"` into a
deduplicated set of `(file path, name)` pairs, and, for each collected
pair, re-reads the owning file and searches its top-level items for a
declaration named `name.replace("_unchecked", "")`, emitting a report row
`(path, name, counterpart-or-"None")`.  This file embeds those
operations and proves properties about them.
-/

namespace ScanUnchecked

/-- The substring the visitor tests for with `fn_name.contains("unchecked")`
(`main.rs` lines 18 and 32). -/
def visitMarker : List Char := ['u', 'n', 'c', 'h', 'e', 'c', 'k', 'e', 'd']

/-- The substring removed to form the counterpart name,
`func_name.replace("_unchecked", "")` (`main.rs` line 92). -/
def stripMarker : List Char := ['_', 'u', 'n', 'c', 'h', 'e', 'c', 'k', 'e', 'd']

/-- Substring containment on character lists; embeds Rust `str::contains`
for a literal pattern: some position of `s` starts with `pat`. -/
def containsSub (pat : List Char) : List Char → Bool
  | [] => pat.isPrefixOf []
  | c :: r => pat.isPrefixOf (c :: r) || containsSub pat r

/-- Worker for `removeMarker`.  While `skip` is positive the current
character belongs to an occurrence of the marker already recognised and is
dropped; at `skip = 0` the scan tests for the marker at the current
position, starting a ten-character skip on a hit (one char here, nine via
the counter) and emitting the character otherwise. -/
def removeMarkerAux : Nat → List Char → List Char
  | _, [] => []
  | skip + 1, _ :: r => removeMarkerAux skip r
  | 0, c :: r =>
      if stripMarker.isPrefixOf (c :: r) then removeMarkerAux 9 r
      else c :: removeMarkerAux 0 r

/-- Embeds `func_name.replace("_unchecked", "")` (`main.rs` line 92):
Rust `str::replace` deletes the non-overlapping occurrences of the pattern
found scanning left to right. -/
def removeMarker (s : List Char) : List Char := removeMarkerAux 0 s

/-- Index of the leftmost position of `s` at which the marker occurs. -/
def findMarker : List Char → Option Nat
  | [] => none
  | c :: r =>
      if stripMarker.isPrefixOf (c :: r) then some 0
      else (findMarker r).map (· + 1)

theorem findMarker_bound :
    ∀ s i, findMarker s = some i → i + stripMarker.length ≤ s.length := by
  intro s
  induction s with
  | nil => intro i h; simp [findMarker] at h
  | cons c r ih =>
    intro i h
    by_cases hp : stripMarker.isPrefixOf (c :: r)
    · simp [findMarker, hp] at h
      subst h
      have := List.IsPrefix.length_le (List.isPrefixOf_iff_prefix.mp hp)
      simpa using this
    · simp [findMarker, hp] at h
      obtain ⟨j, hj, rfl⟩ := h
      have := ih j hj
      simp only [List.length_cons]
      omega

/-- The counterpart-name transformation as the specification words it:
find an occurrence of the marker, delete it, and continue searching the
remainder of the name, so that the marker is removed at every position
where it occurs — not only as a suffix and not only the first occurrence. -/
def specStrip (s : List Char) : List Char :=
  match h : findMarker s with
  | none => s
  | some i => s.take i ++ specStrip (s.drop (i + stripMarker.length))
termination_by s.length
decreasing_by
  have hb := findMarker_bound s i h
  have hL : stripMarker.length = 10 := rfl
  simp only [List.length_drop]
  omega

theorem findMarker_nil : findMarker [] = none := rfl

theorem specStrip_of_none {s : List Char} (h : findMarker s = none) :
    specStrip s = s := by
  rw [specStrip]
  split
  · rfl
  · rename_i i hi
    rw [h] at hi
    cases hi

theorem specStrip_of_some {s : List Char} {i : Nat} (h : findMarker s = some i) :
    specStrip s = s.take i ++ specStrip (s.drop (i + stripMarker.length)) := by
  rw [specStrip]
  split
  · rename_i hn
    rw [h] at hn
    cases hn
  · rename_i j hj
    rw [h] at hj
    cases hj
    rfl

theorem removeMarkerAux_drop :
    ∀ (s : List Char) (n : Nat), removeMarkerAux n s = removeMarkerAux 0 (s.drop n) := by
  intro s
  induction s with
  | nil => intro n; cases n <;> rfl
  | cons c r ih =>
    intro n
    cases n with
    | zero => rfl
    | succ m => simpa [removeMarkerAux] using ih m

theorem removeMarker_nil : removeMarker [] = [] := rfl

theorem removeMarker_pos {c : Char} {r : List Char}
    (h : stripMarker.isPrefixOf (c :: r) = true) :
    removeMarker (c :: r) = removeMarker ((c :: r).drop stripMarker.length) := by
  show removeMarkerAux 0 (c :: r) = _
  rw [removeMarkerAux]
  simp only [h, if_true]
  rw [removeMarkerAux_drop r 9]
  rfl

theorem removeMarker_neg {c : Char} {r : List Char}
    (h : stripMarker.isPrefixOf (c :: r) = false) :
    removeMarker (c :: r) = c :: removeMarker r := by
  show removeMarkerAux 0 (c :: r) = _
  rw [removeMarkerAux]
  simp [h]
  rfl

theorem removeMarker_eq_specStrip_aux :
    ∀ (n : Nat) (s : List Char), s.length ≤ n → removeMarker s = specStrip s := by
  intro n
  induction n with
  | zero =>
    intro s hs
    have : s = [] := List.length_eq_zero.mp (Nat.le_zero.mp hs)
    subst this
    rw [removeMarker_nil, specStrip_of_none findMarker_nil]
  | succ m ih =>
    intro s hs
    cases s with
    | nil => rw [removeMarker_nil, specStrip_of_none findMarker_nil]
    | cons c r =>
      by_cases hp : stripMarker.isPrefixOf (c :: r) = true
      · have hfm : findMarker (c :: r) = some 0 := by simp [findMarker, hp]
        rw [removeMarker_pos hp, specStrip_of_some hfm]
        have hlen : ((c :: r).drop stripMarker.length).length ≤ m := by
          have h10 : stripMarker.length = 10 := rfl
          have hle := List.IsPrefix.length_le (List.isPrefixOf_iff_prefix.mp hp)
          simp only [List.length_drop]
          simp only [List.length_cons] at hs hle ⊢
          omega
        rw [ih _ hlen]
        simp
      · have hp' : stripMarker.isPrefixOf (c :: r) = false := by
          rwa [Bool.not_eq_true] at hp
        rw [removeMarker_neg hp']
        have hr : removeMarker r = specStrip r := by
          apply ih
          simpa [Nat.succ_le_succ_iff] using hs
        rw [hr]
        cases hm : findMarker r with
        | none =>
          have hfm : findMarker (c :: r) = none := by
            simp [findMarker, hp', hm]
          rw [specStrip_of_none hfm, specStrip_of_none hm]
        | some j =>
          have hfm : findMarker (c :: r) = some (j + 1) := by
            simp [findMarker, hp', hm]
          rw [specStrip_of_some hfm, specStrip_of_some hm]
          simp only [List.take_succ_cons, List.cons_append]
          have : (c :: r).drop (j + 1 + stripMarker.length) =
              r.drop (j + stripMarker.length) := by
            rw [Nat.add_right_comm, List.drop_succ_cons]
          rw [this]

/-- The code's marker removal agrees with removing the marker at every
(left-to-right, non-overlapping) position where it occurs. -/
theorem removeMarker_eq_specStrip (s : List Char) :
    removeMarker s = specStrip s :=
  removeMarker_eq_specStrip_aux s.length s (Nat.le_refl _)

/-- A name containing no occurrence of `"_unchecked"` is left unchanged by
the counterpart transformation. -/
theorem removeMarker_of_not_contains :
    ∀ s : List Char, containsSub stripMarker s = false → removeMarker s = s := by
  intro s
  induction s with
  | nil => intro _; rfl
  | cons c r ih =>
    intro h
    simp only [containsSub, Bool.or_eq_false_iff] at h
    rw [removeMarker_neg h.1, ih h.2]

/-! ## The declaration tree

The projection of `syn`'s Rust AST that the program inspects: free
functions (`Item::Fn`, whose bodies may hold further items), `impl`
blocks with their members, inline modules (whose contents the generic
`syn` visitor walks), and a constructor for every other kind of item,
which the program treats as opaque. -/

mutual
inductive Item : Type where
  | fn (name : List Char) (body : Items)
  | implBlock (members : Members)
  | modBlock (body : Items)
  | other
inductive Items : Type where
  | nil
  | cons (head : Item) (tail : Items)
inductive Members : Type where
  | fn (name : List Char) (body : Items) (tail : Members)
  | other (tail : Members)
  | nil
end

/-- Names of the `ImplItem::Fn` members of an `impl` block. -/
def memberNamesAll : Members → List (List Char)
  | .nil => []
  | .fn n _ t => n :: memberNamesAll t
  | .other t => memberNamesAll t

/-- The loop in `visit_item_impl` (`main.rs` lines 27–36): the names of
the `ImplItem::Fn` members whose identifier contains the marker. -/
def memberMarkerNames : Members → List (List Char)
  | .nil => []
  | .fn n _ t =>
      (if containsSub visitMarker n then [n] else []) ++ memberMarkerNames t
  | .other t => memberMarkerNames t

/-! The visitor of `main.rs` lines 13–39.  `visit_item_fn` records the
function's name when it contains `"unchecked"` and then calls
`visit::visit_item_fn`, which walks the body; `visit_item_impl` records
the matching member names and then calls `visit::visit_item_impl`, which
walks the member bodies; the generic visitor also walks module contents.
`visitItem`/`visitItems`/`visitBodies` return the recorded names. -/

mutual
def visitItem : Item → List (List Char)
  | .fn n body =>
      (if containsSub visitMarker n then [n] else []) ++ visitItems body
  | .implBlock ms => memberMarkerNames ms ++ visitBodies ms
  | .modBlock body => visitItems body
  | .other => []
def visitItems : Items → List (List Char)
  | .nil => []
  | .cons i t => visitItem i ++ visitItems t
def visitBodies : Members → List (List Char)
  | .nil => []
  | .fn _ body t => visitItems body ++ visitBodies t
  | .other t => visitBodies t
end

/-! `declItem`/`declItems`/`declBodies` collect the identifiers of all
function and method declarations that the visitor's traversal reaches,
with no marker filter. -/

mutual
def declItem : Item → List (List Char)
  | .fn n body => n :: declItems body
  | .implBlock ms => memberNamesAll ms ++ declBodies ms
  | .modBlock body => declItems body
  | .other => []
def declItems : Items → List (List Char)
  | .nil => []
  | .cons i t => declItem i ++ declItems t
def declBodies : Members → List (List Char)
  | .nil => []
  | .fn _ body t => declItems body ++ declBodies t
  | .other t => declBodies t
end

theorem memberMarkerNames_eq :
    ∀ ms : Members,
      memberMarkerNames ms = (memberNamesAll ms).filter (containsSub visitMarker)
  | .fn n body t => by
      simp only [memberMarkerNames, memberNamesAll, List.filter_cons,
        memberMarkerNames_eq t]
      by_cases h : containsSub visitMarker n <;> simp [h]
  | .other t => by
      simpa only [memberMarkerNames, memberNamesAll] using memberMarkerNames_eq t
  | .nil => rfl

mutual
theorem visitItem_eq :
    ∀ i : Item, visitItem i = (declItem i).filter (containsSub visitMarker)
  | .fn n body => by
      simp only [visitItem, declItem, List.filter_cons, visitItems_eq body]
      by_cases h : containsSub visitMarker n <;> simp [h]
  | .implBlock ms => by
      simp only [visitItem, declItem, List.filter_append,
        memberMarkerNames_eq ms, visitBodies_eq ms]
  | .modBlock body => by
      simp only [visitItem, declItem, visitItems_eq body]
  | .other => rfl
theorem visitItems_eq :
    ∀ l : Items, visitItems l = (declItems l).filter (containsSub visitMarker)
  | .nil => rfl
  | .cons i t => by
      simp only [visitItems, declItems, List.filter_append,
        visitItem_eq i, visitItems_eq t]
theorem visitBodies_eq :
    ∀ ms : Members, visitBodies ms = (declBodies ms).filter (containsSub visitMarker)
  | .fn n body t => by
      simp only [visitBodies, declBodies, List.filter_append,
        visitItems_eq body, visitBodies_eq t]
  | .other t => by
      simp only [visitBodies, declBodies, visitBodies_eq t]
  | .nil => rfl
end

/-- Membership form of `visitItems_eq`: the visitor records exactly the
reachable declaration names whose identifier contains the marker. -/
theorem mem_visitItems_iff (l : Items) (n : List Char) :
    n ∈ visitItems l ↔ n ∈ declItems l ∧ containsSub visitMarker n = true := by
  rw [visitItems_eq]
  simp [List.mem_filter]

/-! ## The counterpart search of `check_for_safe_versions`
(`main.rs` lines 100–122): a loop over `parsed_file.items` that inspects
only top-level `Item::Fn` declarations and the `ImplItem::Fn` members of
top-level `Item::Impl` blocks. -/

/-- The inner loop over an `impl` block's members (lines 111–118). -/
def memberHas (safe : List Char) : Members → Bool
  | .nil => false
  | .fn n _ t => n == safe || memberHas safe t
  | .other t => memberHas safe t

/-- The loop computing `found_safe_func` (lines 98–122). -/
def declaresTopLevel (safe : List Char) : Items → Bool
  | .nil => false
  | .cons (.fn n _) t => n == safe || declaresTopLevel safe t
  | .cons (.implBlock ms) t => memberHas safe ms || declaresTopLevel safe t
  | .cons (.modBlock _) t => declaresTopLevel safe t
  | .cons .other t => declaresTopLevel safe t

/-- The declarations the counterpart search can reach: top-level free
functions and members of top-level `impl` blocks. -/
def topLevelDeclNames : Items → List (List Char)
  | .nil => []
  | .cons (.fn n _) t => n :: topLevelDeclNames t
  | .cons (.implBlock ms) t => memberNamesAll ms ++ topLevelDeclNames t
  | .cons (.modBlock _) t => topLevelDeclNames t
  | .cons .other t => topLevelDeclNames t

theorem memberHas_iff (safe : List Char) :
    ∀ ms : Members, memberHas safe ms = true ↔ safe ∈ memberNamesAll ms
  | .fn n body t => by
      simp only [memberHas, memberNamesAll, Bool.or_eq_true, beq_iff_eq,
        memberHas_iff safe t, List.mem_cons]
      tauto
  | .other t => by
      simpa only [memberHas, memberNamesAll] using memberHas_iff safe t
  | .nil => by simp [memberHas, memberNamesAll]

theorem declaresTopLevel_iff (safe : List Char) :
    ∀ l : Items, declaresTopLevel safe l = true ↔ safe ∈ topLevelDeclNames l
  | .cons (.fn n body) t => by
      simp only [declaresTopLevel, topLevelDeclNames, Bool.or_eq_true,
        beq_iff_eq, declaresTopLevel_iff safe t, List.mem_cons]
      tauto
  | .cons (.implBlock ms) t => by
      simp [declaresTopLevel, topLevelDeclNames, memberHas_iff,
        declaresTopLevel_iff safe t]
  | .cons (.modBlock body) t => by
      simpa [declaresTopLevel, topLevelDeclNames] using declaresTopLevel_iff safe t
  | .cons .other t => by
      simpa [declaresTopLevel, topLevelDeclNames] using declaresTopLevel_iff safe t
  | .nil => by simp [declaresTopLevel, topLevelDeclNames]

/-- Every declaration the counterpart search can reach is also reached by
the visitor's traversal. -/
theorem topLevel_subset_decl :
    ∀ (l : Items) (n : List Char), n ∈ topLevelDeclNames l → n ∈ declItems l
  | .cons (.fn m body) t => by
      intro n hn
      simp only [topLevelDeclNames, List.mem_cons] at hn
      rcases hn with rfl | hn
      · simp [declItems, declItem]
      · simp only [declItems, List.mem_append]
        exact Or.inr (topLevel_subset_decl t n hn)
  | .cons (.implBlock ms) t => by
      intro n hn
      simp only [topLevelDeclNames, List.mem_append] at hn
      rcases hn with hn | hn
      · simp [declItems, declItem, hn]
      · simp only [declItems, List.mem_append]
        exact Or.inr (topLevel_subset_decl t n hn)
  | .cons (.modBlock body) t => by
      intro n hn
      simp only [topLevelDeclNames] at hn
      simp only [declItems, List.mem_append]
      exact Or.inr (topLevel_subset_decl t n hn)
  | .cons .other t => by
      intro n hn
      simp only [topLevelDeclNames] at hn
      simp only [declItems, List.mem_append]
      exact Or.inr (topLevel_subset_decl t n hn)
  | .nil => by intro n hn; simp [topLevelDeclNames] at hn

/-! ## The pipeline -/

/-- File paths, as the string keys the program uses. -/
abbrev Path := List Char

/-- A `(file path, function name)` pair of the `unchecked_functions` set. -/
abbrev Entry := Path × List Char

/-- A `(file path, unchecked name, safe name or sentinel)` result triple. -/
abbrev Row := Path × List Char × List Char

/-- What the program observes when it reads and parses one file:
`fs::read_to_string` may fail, `syn::parse_file` may fail, or a
declaration tree is produced. -/
inductive ReadResult : Type where
  | readFail
  | parseFail
  | parsed (file : Items)

/-- The error a run aborts with, `?`-propagated from a failed read or a
failed parse. -/
inductive Err : Type where
  | readErr
  | parseErr
deriving DecidableEq

/-- The file tree: what reading and parsing each path yields. -/
abbrev FileSys := Path → ReadResult

/-- `HashSet::insert`: a no-op when the element is present. -/
def insertEntry {α : Type} [DecidableEq α] (e : α) (l : List α) : List α :=
  if e ∈ l then l else l ++ [e]

/-- Inserting a batch of elements one by one. -/
def insertAll {α : Type} [DecidableEq α] (news acc : List α) : List α :=
  news.foldl (fun a e => insertEntry e a) acc

/-- The entries `process_file` produces for one file (`main.rs` lines
44–58): the visitor's recorded names, paired with the file path and
collected into the visitor's own set. -/
def processFileEntries (p : Path) (file : Items) : List Entry :=
  insertAll ((visitItems file).map (fun n => (p, n))) []

/-- `process_directory` restricted to the discovered `.rs` paths
(`main.rs` lines 63–82): each file is read, parsed and visited, its
entries merged into the shared set; a failure propagates via `?`. -/
def processDirectory (fs : FileSys) : List Path → List Entry → Except Err (List Entry)
  | [], acc => .ok acc
  | p :: rest, acc =>
      match fs p with
      | .readFail => .error .readErr
      | .parseFail => .error .parseErr
      | .parsed file =>
          processDirectory fs rest (insertAll (processFileEntries p file) acc)

/-- The literal `"None"` recorded when no safe version is found. -/
def noneSentinel : List Char := ['N', 'o', 'n', 'e']

/-- The body of the loop in `check_for_safe_versions` (`main.rs` lines
90–130) for one entry: re-read and re-parse the owning file, search its
top-level items for the counterpart name, and produce the result triple. -/
def checkEntry (fs : FileSys) (e : Entry) : Except Err Row :=
  let safe := removeMarker e.2
  match fs e.1 with
  | .readFail => .error .readErr
  | .parseFail => .error .parseErr
  | .parsed file =>
      if declaresTopLevel safe file then .ok (e.1, e.2, safe)
      else .ok (e.1, e.2, noneSentinel)

/-- `check_for_safe_versions` (`main.rs` lines 84–133): resolve every
collected entry, inserting each triple into the `results` set. -/
def checkForSafeVersions (fs : FileSys) : List Entry → List Row → Except Err (List Row)
  | [], acc => .ok acc
  | e :: rest, acc =>
      match checkEntry fs e with
      | .error err => .error err
      | .ok r => checkForSafeVersions fs rest (insertEntry r acc)

/-! ## The report (`main.rs` lines 146–161) -/

/-- Maximum length of the strings of a column, `iter().map(len).max().unwrap_or(0)`. -/
def maxLen (l : List (List Char)) : Nat := l.foldr (fun s m => max s.length m) 0

/-- Width of the file-path column: `max_file_path_len + 2` (line 147). -/
def fileColWidth (rows : List Row) : Nat := maxLen (rows.map (fun r => r.1)) + 2

/-- Width of the unchecked-function column: `max_unchecked_func_len + 2`. -/
def funcColWidth (rows : List Row) : Nat := maxLen (rows.map (fun r => r.2.1)) + 2

/-- Width of the safe-function column: `max_safe_func_len + 2`. -/
def safeColWidth (rows : List Row) : Nat := maxLen (rows.map (fun r => r.2.2)) + 2

/-- Rust's `{:w$}` for a string value: left-aligned, space-padded to at
least `w` characters, never truncated. -/
def padTo (w : Nat) (s : List Char) : List Char :=
  s ++ List.replicate (w - s.length) ' '

/-- One `| {:a$} | {:b$} | {:c$} |\n` line. -/
def rowLine (a b c : Nat) (r : Row) : List Char :=
  ['|', ' '] ++ padTo a r.1 ++ [' ', '|', ' '] ++ padTo b r.2.1 ++
    [' ', '|', ' '] ++ padTo c r.2.2 ++ [' ', '|', '\n']

/-- The header triple written with the same format string as data rows. -/
def headerRow : Row :=
  ("File Path".toList, "Unchecked Function".toList, "Safe Function".toList)

/-- The `|{:-<a$}|{:-<b$}|{:-<c$}|\n` separator line: dashes as fill on
the empty string, so exactly `a`, `b`, `c` dashes between the bars. -/
def sepLine (a b c : Nat) : List Char :=
  ['|'] ++ List.replicate a '-' ++ ['|'] ++ List.replicate b '-' ++
    ['|'] ++ List.replicate c '-' ++ ['|', '\n']

/-- The report text written to `safe_version_results.txt`, with the rows
in the order the result set is iterated. -/
def renderReport (rows : List Row) : List Char :=
  let a := fileColWidth rows
  let b := funcColWidth rows
  let c := safeColWidth rows
  rowLine a b c headerRow ++ sepLine a b c ++ (rows.map (rowLine a b c)).flatten

/-- The file-path column width as the claim words it: the maximum length
over every row of the column, the header row included, plus the fixed
padding of two. -/
def claimFileColWidth (rows : List Row) : Nat :=
  maxLen ("File Path".toList :: rows.map (fun r => r.1)) + 2

/-- `main` (`main.rs` lines 136–166): collect, resolve, then render.  The
report exists exactly when the run returns `.ok`; both fallible phases
run before the report file is created. -/
def mainRun (fs : FileSys) (paths : List Path) : Except Err (List Char) :=
  match processDirectory fs paths [] with
  | .error e => .error e
  | .ok entries =>
      match checkForSafeVersions fs entries [] with
      | .error e => .error e
      | .ok rows => .ok (renderReport rows)

/-! ## Lemmas about the pipeline -/

theorem mem_insertEntry {α : Type} [DecidableEq α] (a e : α) (l : List α) :
    a ∈ insertEntry e l ↔ a = e ∨ a ∈ l := by
  by_cases h : e ∈ l
  · simp only [insertEntry, if_pos h]
    constructor
    · exact Or.inr
    · rintro (rfl | m)
      · exact h
      · exact m
  · simp only [insertEntry, if_neg h, List.mem_append, List.mem_singleton]
    tauto

theorem nodup_insertEntry {α : Type} [DecidableEq α] (e : α) (l : List α)
    (h : l.Nodup) : (insertEntry e l).Nodup := by
  by_cases hm : e ∈ l
  · simpa only [insertEntry, if_pos hm] using h
  · simp only [insertEntry, if_neg hm]
    refine List.nodup_append.mpr ⟨h, List.nodup_singleton e, ?_⟩
    intro a ha hb
    rw [List.mem_singleton] at hb
    subst hb
    exact hm ha

theorem mem_insertAll {α : Type} [DecidableEq α] (a : α) :
    ∀ news acc : List α, a ∈ insertAll news acc ↔ a ∈ news ∨ a ∈ acc := by
  intro news
  induction news with
  | nil => intro acc; simp [insertAll]
  | cons e t ih =>
    intro acc
    have : insertAll (e :: t) acc = insertAll t (insertEntry e acc) := rfl
    rw [this, ih, mem_insertEntry]
    simp only [List.mem_cons]
    tauto

theorem nodup_insertAll {α : Type} [DecidableEq α] :
    ∀ news acc : List α, acc.Nodup → (insertAll news acc).Nodup := by
  intro news
  induction news with
  | nil => intro acc h; simpa [insertAll] using h
  | cons e t ih =>
    intro acc h
    have : insertAll (e :: t) acc = insertAll t (insertEntry e acc) := rfl
    rw [this]
    exact ih _ (nodup_insertEntry e acc h)

theorem mem_processFileEntries (p : Path) (file : Items) (en : Entry) :
    en ∈ processFileEntries p file ↔ en.1 = p ∧ en.2 ∈ visitItems file := by
  rw [processFileEntries, mem_insertAll]
  simp only [List.mem_map, List.not_mem_nil, or_false]
  constructor
  · rintro ⟨n, hn, rfl⟩
    exact ⟨rfl, hn⟩
  · rintro ⟨h1, h2⟩
    exact ⟨en.2, h2, by rw [← h1]⟩

theorem processDirectory_ok_reads (fs : FileSys) :
    ∀ (paths : List Path) (acc entries : List Entry),
      processDirectory fs paths acc = .ok entries →
      ∀ p ∈ paths, ∃ file, fs p = .parsed file := by
  intro paths
  induction paths with
  | nil => intro acc entries _ p hp; cases hp
  | cons q rest ih =>
    intro acc entries h p hp
    rcases List.mem_cons.mp hp with rfl | hp'
    · cases hq : fs p with
      | readFail => rw [processDirectory, hq] at h; cases h
      | parseFail => rw [processDirectory, hq] at h; cases h
      | parsed file => exact ⟨file, rfl⟩
    · cases hq : fs q with
      | readFail => rw [processDirectory, hq] at h; cases h
      | parseFail => rw [processDirectory, hq] at h; cases h
      | parsed file =>
        rw [processDirectory, hq] at h
        exact ih _ _ h p hp'

theorem processDirectory_ok_mem (fs : FileSys) :
    ∀ (paths : List Path) (acc entries : List Entry),
      processDirectory fs paths acc = .ok entries →
      ∀ en : Entry,
        en ∈ entries ↔
          en ∈ acc ∨ ∃ p ∈ paths, ∃ file,
            fs p = .parsed file ∧ en.1 = p ∧ en.2 ∈ visitItems file := by
  intro paths
  induction paths with
  | nil =>
    intro acc entries h en
    rw [processDirectory] at h
    cases h
    simp
  | cons q rest ih =>
    intro acc entries h en
    cases hq : fs q with
    | readFail => rw [processDirectory, hq] at h; cases h
    | parseFail => rw [processDirectory, hq] at h; cases h
    | parsed file =>
      rw [processDirectory, hq] at h
      rw [ih _ _ h en, mem_insertAll, mem_processFileEntries]
      constructor
      · rintro ((⟨h1, h2⟩ | hacc) | ⟨p, hp, f, hf, h1, h2⟩)
        · exact Or.inr ⟨q, List.mem_cons_self q rest, file, hq, h1, h2⟩
        · exact Or.inl hacc
        · exact Or.inr ⟨p, List.mem_cons_of_mem q hp, f, hf, h1, h2⟩
      · rintro (hacc | ⟨p, hp, f, hf, h1, h2⟩)
        · exact Or.inl (Or.inr hacc)
        · rcases List.mem_cons.mp hp with rfl | hp'
          · rw [hq] at hf
            cases hf
            exact Or.inl (Or.inl ⟨h1, h2⟩)
          · exact Or.inr ⟨p, hp', f, hf, h1, h2⟩

theorem processDirectory_nodup (fs : FileSys) :
    ∀ (paths : List Path) (acc entries : List Entry),
      processDirectory fs paths acc = .ok entries →
      acc.Nodup → entries.Nodup := by
  intro paths
  induction paths with
  | nil =>
    intro acc entries h hn
    rw [processDirectory] at h
    cases h
    exact hn
  | cons q rest ih =>
    intro acc entries h hn
    cases hq : fs q with
    | readFail => rw [processDirectory, hq] at h; cases h
    | parseFail => rw [processDirectory, hq] at h; cases h
    | parsed file =>
      rw [processDirectory, hq] at h
      exact ih _ _ h (nodup_insertAll _ _ hn)

theorem processDirectory_error_of_fail (fs : FileSys) (paths : List Path)
    (acc : List Entry) (p : Path) (hp : p ∈ paths)
    (hfail : ∀ file, fs p ≠ .parsed file) :
    ∃ e, processDirectory fs paths acc = .error e := by
  cases h : processDirectory fs paths acc with
  | error e => exact ⟨e, rfl⟩
  | ok entries =>
    obtain ⟨file, hfile⟩ := processDirectory_ok_reads fs paths acc entries h p hp
    exact absurd hfile (hfail file)

theorem checkForSafeVersions_sub (fs : FileSys) :
    ∀ (entries : List Entry) (acc rows : List Row),
      checkForSafeVersions fs entries acc = .ok rows →
      ∀ r ∈ acc, r ∈ rows := by
  intro entries
  induction entries with
  | nil =>
    intro acc rows h r hr
    rw [checkForSafeVersions] at h
    cases h
    exact hr
  | cons e t ih =>
    intro acc rows h r hr
    cases hc : checkEntry fs e with
    | error err => rw [checkForSafeVersions, hc] at h; cases h
    | ok r' =>
      rw [checkForSafeVersions, hc] at h
      exact ih _ _ h r ((mem_insertEntry r r' acc).mpr (Or.inr hr))

theorem checkForSafeVersions_mem (fs : FileSys) :
    ∀ (entries : List Entry) (acc rows : List Row),
      checkForSafeVersions fs entries acc = .ok rows →
      ∀ e ∈ entries, ∃ r, checkEntry fs e = .ok r ∧ r ∈ rows := by
  intro entries
  induction entries with
  | nil => intro acc rows _ e he; cases he
  | cons e' t ih =>
    intro acc rows h e he
    cases hc : checkEntry fs e' with
    | error err => rw [checkForSafeVersions, hc] at h; cases h
    | ok r' =>
      rw [checkForSafeVersions, hc] at h
      rcases List.mem_cons.mp he with rfl | he'
      · refine ⟨r', hc, ?_⟩
        exact checkForSafeVersions_sub fs t _ rows h r'
          ((mem_insertEntry r' r' acc).mpr (Or.inl rfl))
      · exact ih _ _ h e he'

theorem maxLen_mem {s : List Char} :
    ∀ l : List (List Char), s ∈ l → s.length ≤ maxLen l := by
  intro l
  induction l with
  | nil => intro h; cases h
  | cons x t ih =>
    intro h
    rcases List.mem_cons.mp h with rfl | h'
    · simp [maxLen]
    · have := ih h'
      simp only [maxLen, List.foldr_cons] at *
      omega

theorem padTo_length (w : Nat) (s : List Char) :
    (padTo w s).length = max w s.length := by
  simp only [padTo, List.length_append, List.length_replicate]
  omega

/-- `checkEntry` on a readable, parseable file, written with the search
outcome as the only case split. -/
theorem checkEntry_parsed (fs : FileSys) (p : Path) (name : List Char)
    (file : Items) (h : fs p = .parsed file) :
    checkEntry fs (p, name) =
      if declaresTopLevel (removeMarker name) file then
        .ok (p, name, removeMarker name)
      else .ok (p, name, noneSentinel) := by
  simp only [checkEntry, h]

/-- Whether the file's top-level items include a free function named `n`. -/
def hasTopLevelFn (n : List Char) : Items → Bool
  | .nil => false
  | .cons (.fn m _) t => m == n || hasTopLevelFn n t
  | .cons (.implBlock _) t => hasTopLevelFn n t
  | .cons (.modBlock _) t => hasTopLevelFn n t
  | .cons .other t => hasTopLevelFn n t

theorem hasTopLevelFn_top (n : List Char) :
    ∀ l : Items, hasTopLevelFn n l = true → n ∈ topLevelDeclNames l
  | .cons (.fn m body) t => by
      intro h
      simp only [hasTopLevelFn, Bool.or_eq_true, beq_iff_eq] at h
      rcases h with rfl | h
      · simp [topLevelDeclNames]
      · simp only [topLevelDeclNames, List.mem_cons]
        exact Or.inr (hasTopLevelFn_top n t h)
  | .cons (.implBlock ms) t => by
      intro h
      simp only [topLevelDeclNames, List.mem_append]
      exact Or.inr (hasTopLevelFn_top n t h)
  | .cons (.modBlock body) t => by
      intro h
      simpa only [topLevelDeclNames] using hasTopLevelFn_top n t h
  | .cons .other t => by
      intro h
      simpa only [topLevelDeclNames] using hasTopLevelFn_top n t h
  | .nil => by intro h; cases h

/-! ## Concrete inputs used by the claim-level theorems -/

/-- A file whose single top-level function is named `unchecked_get`:
the name contains `"unchecked"` but not `"_unchecked"`. -/
def c1File : Items := .cons (.fn "unchecked_get".toList .nil) .nil

def c1Fs : FileSys := fun p =>
  if p = "f.rs".toList then .parsed c1File else .readFail

/-- A file whose single top-level function is named `get_unchecked`. -/
def c1WFile : Items := .cons (.fn "get_unchecked".toList .nil) .nil

def c1WFs : FileSys := fun p =>
  if p = "g.rs".toList then .parsed c1WFile else .readFail

/-- A file declaring `pop_unchecked` and `pop` inside an inline module. -/
def c2File : Items :=
  .cons (.modBlock (.cons (.fn "pop_unchecked".toList .nil)
    (.cons (.fn "pop".toList .nil) .nil))) .nil

/-- A file declaring `fetch_unchecked` and `fetch` inside an inline module. -/
def c4File : Items :=
  .cons (.modBlock (.cons (.fn "fetch_unchecked".toList .nil)
    (.cons (.fn "fetch".toList .nil) .nil))) .nil

def c4Fs : FileSys := fun p =>
  if p = "m.rs".toList then .parsed c4File else .readFail

/-- A file declaring `fetch_unchecked` and `fetch` at top level. -/
def c4WFile : Items :=
  .cons (.fn "fetch_unchecked".toList .nil)
    (.cons (.fn "fetch".toList .nil) .nil)

def c4WFs : FileSys := fun p =>
  if p = "w.rs".toList then .parsed c4WFile else .readFail

def c7FileA : Items := .cons (.fn "push_unchecked".toList .nil) .nil

def c7FileB : Items := .cons (.fn "push".toList .nil) .nil

/-- A tree holding only `a.rs`, which declares `push_unchecked` alone. -/
def c7Fs : FileSys := fun p =>
  if p = "a.rs".toList then .parsed c7FileA else .readFail

/-- The same `a.rs` next to a `b.rs` that declares `push`. -/
def c7FsB : FileSys := fun p =>
  if p = "a.rs".toList then .parsed c7FileA
  else if p = "b.rs".toList then .parsed c7FileB
  else .readFail

/-- A file declaring `dup_unchecked` twice at top level. -/
def c8File : Items :=
  .cons (.fn "dup_unchecked".toList .nil)
    (.cons (.fn "dup_unchecked".toList .nil) .nil)

def c8Fs : FileSys := fun p =>
  if p = "d.rs".toList then .parsed c8File else .readFail

def c9Fs : FileSys := fun p =>
  if p = "ok.rs".toList then .parsed .nil else .readFail

def c10File : Items := .cons (.fn "unchecked_get".toList .nil) .nil

def c10Fs : FileSys := fun p =>
  if p = "u.rs".toList then .parsed c10File else .readFail

def c5Row : Row := ("a.rs".toList, "x_unchecked".toList, "x".toList)

/-! ## The claims -/

/-- C1, counterexample.  The claim says a declaration is collected iff its
identifier contains `"_unchecked"`.  Running the collection phase on a
file whose only declaration is the top-level function `unchecked_get`
collects that declaration although its identifier does not contain
`"_unchecked"`: the visitor tests for the substring `"unchecked"`. -/
theorem c1_counterexample :
    processDirectory c1Fs ["f.rs".toList] [] =
      .ok [("f.rs".toList, "unchecked_get".toList)] ∧
    containsSub stripMarker "unchecked_get".toList = false :=
  ⟨rfl, by decide⟩

/-- C1, amended: a declaration reached by the visitor's traversal (free
functions and `impl`-block methods, at any nesting depth, in every
processed file) is collected as a `(path, name)` entry if and only if its
bare identifier contains the substring `"unchecked"` — case-sensitive
substring containment, with no qualification. -/
theorem c1_collected_iff (fs : FileSys) (paths : List Path)
    (entries : List Entry)
    (h : processDirectory fs paths [] = .ok entries)
    (p : Path) (n : List Char) :
    (p, n) ∈ entries ↔
      ∃ file, p ∈ paths ∧ fs p = .parsed file ∧ n ∈ declItems file ∧
        containsSub visitMarker n = true := by
  rw [processDirectory_ok_mem fs paths [] entries h (p, n)]
  simp only [List.not_mem_nil, false_or]
  constructor
  · rintro ⟨q, hq, file, hf, h1, h2⟩
    cases h1
    rw [mem_visitItems_iff] at h2
    exact ⟨file, hq, hf, h2.1, h2.2⟩
  · rintro ⟨file, hp, hf, hd, hc⟩
    exact ⟨p, hp, file, hf, rfl, (mem_visitItems_iff file n).mpr ⟨hd, hc⟩⟩

theorem c1_collected_iff_witness :
    ("g.rs".toList, "get_unchecked".toList) ∈
      ([("g.rs".toList, "get_unchecked".toList)] : List Entry) :=
  (c1_collected_iff c1WFs ["g.rs".toList]
      [("g.rs".toList, "get_unchecked".toList)] rfl
      "g.rs".toList "get_unchecked".toList).mpr
    ⟨c1WFile, by decide, rfl, by decide, by decide⟩

/-- C2, counterexample.  The claim says every declaration the visitor
would collect is also reachable by the resolver's search.  In a file
whose declarations sit inside an inline module the visitor collects
`pop_unchecked`, and its traversal reaches the sibling `pop`, yet the
resolver's top-level search reaches neither: it finds no `pop` when
resolving the entry, and `pop_unchecked` itself is outside its search
space. -/
theorem c2_counterexample :
    "pop_unchecked".toList ∈ visitItems c2File ∧
    "pop".toList ∈ declItems c2File ∧
    removeMarker "pop_unchecked".toList = "pop".toList ∧
    declaresTopLevel "pop".toList c2File = false ∧
    "pop_unchecked".toList ∉ topLevelDeclNames c2File := by decide

/-- C2, amended: the inclusion holds in the opposite direction only —
every declaration the resolver's top-level search can find is one the
visitor's traversal reaches, but the visitor reaches nested declarations
the resolver cannot. -/
theorem c2_resolver_subset_visitor (l : Items) (n : List Char)
    (h : declaresTopLevel n l = true) : n ∈ declItems l :=
  topLevel_subset_decl l n ((declaresTopLevel_iff n l).mp h)

theorem c2_resolver_subset_visitor_witness :
    "pop".toList ∈ declItems (.cons (.fn "pop".toList .nil) .nil) :=
  c2_resolver_subset_visitor (.cons (.fn "pop".toList .nil) .nil)
    "pop".toList (by decide)

/-- C3: the report's bytes depend on the order in which the result set is
iterated — rendering the same two result rows in the two possible orders
yields different report content, with the same rows and column widths.
The program iterates a `std` `HashSet` whose order varies per run, and the
specification requires byte-identical reports across runs. -/
theorem c3_report_depends_on_iteration_order :
    renderReport [("a.rs".toList, "x_unchecked".toList, noneSentinel),
      ("b.rs".toList, "y_unchecked".toList, noneSentinel)] ≠
    renderReport [("b.rs".toList, "y_unchecked".toList, noneSentinel),
      ("a.rs".toList, "x_unchecked".toList, noneSentinel)] := by decide

/-- C4, counterexample.  The claim says that whenever the file declares a
free function whose name equals the counterpart, the resolver emits the
counterpart.  A file declaring both `fetch_unchecked` and `fetch` as free
functions inside an inline module resolves to the `"None"` sentinel
instead, because the search inspects only top-level items. -/
theorem c4_counterexample :
    "fetch".toList ∈ declItems c4File ∧
    checkEntry c4Fs ("m.rs".toList, "fetch_unchecked".toList) =
      .ok ("m.rs".toList, "fetch_unchecked".toList, noneSentinel) :=
  ⟨by decide, rfl⟩

/-- C4, amended: for an entry whose file reads and parses, the resolver
emits `(path, name, counterpart)` when the counterpart name is declared
among the file's top-level free functions or the members of its top-level
`impl` blocks, and `(path, name, "None")` otherwise. -/
theorem c4_resolution (fs : FileSys) (p : Path) (name : List Char)
    (file : Items) (h : fs p = .parsed file) :
    (removeMarker name ∈ topLevelDeclNames file →
      checkEntry fs (p, name) = .ok (p, name, removeMarker name)) ∧
    (removeMarker name ∉ topLevelDeclNames file →
      checkEntry fs (p, name) = .ok (p, name, noneSentinel)) := by
  rw [checkEntry_parsed fs p name file h]
  constructor
  · intro hd
    rw [(declaresTopLevel_iff _ _).mpr hd]
    simp
  · intro hd
    cases hb : declaresTopLevel (removeMarker name) file
    · simp
    · exact absurd ((declaresTopLevel_iff _ _).mp hb) hd

theorem c4_resolution_witness :
    checkEntry c4WFs ("w.rs".toList, "fetch_unchecked".toList) =
      .ok ("w.rs".toList, "fetch_unchecked".toList, "fetch".toList) := by
  have h := (c4_resolution c4WFs "w.rs".toList "fetch_unchecked".toList
    c4WFile rfl).1 (by decide)
  have hrm : removeMarker "fetch_unchecked".toList = "fetch".toList := by decide
  rw [hrm] at h
  exact h

/-- C5, counterexample.  The claim says each column width is the maximum
length over every row including the header plus the fixed padding, applied
uniformly.  For a result set whose single row has the short path `a.rs`,
the code computes a file-path column width of `6` (data maximum `4` plus
`2`), while the maximum including the header `File Path` gives `11`; the
header cell rendered at the code's width is `9` characters wide, not `6`,
so the width is not applied uniformly. -/
theorem c5_counterexample :
    fileColWidth [c5Row] = 6 ∧
    claimFileColWidth [c5Row] = 11 ∧
    (6 : Nat) ≠ 11 ∧
    (padTo (fileColWidth [c5Row]) "File Path".toList).length ≠
      fileColWidth [c5Row] := by decide

/-- C5, amended: each column width is the maximum string length over the
data rows only, plus the fixed padding of two; every data cell and every
separator segment is rendered at exactly that width, while a header cell
occupies the maximum of that width and the header label's own length, so
a header longer than the computed width overflows it. -/
theorem c5_widths (rows : List Row) (r : Row) (h : r ∈ rows) :
    (padTo (fileColWidth rows) r.1).length = fileColWidth rows ∧
    (padTo (funcColWidth rows) r.2.1).length = funcColWidth rows ∧
    (padTo (safeColWidth rows) r.2.2).length = safeColWidth rows ∧
    (List.replicate (fileColWidth rows) '-').length = fileColWidth rows ∧
    (padTo (fileColWidth rows) "File Path".toList).length =
      max (fileColWidth rows) ("File Path".toList).length := by
  have h1 : r.1.length ≤ maxLen (rows.map (fun x => x.1)) :=
    maxLen_mem _ (List.mem_map_of_mem _ h)
  have h2 : r.2.1.length ≤ maxLen (rows.map (fun x => x.2.1)) :=
    maxLen_mem _ (List.mem_map_of_mem _ h)
  have h3 : r.2.2.length ≤ maxLen (rows.map (fun x => x.2.2)) :=
    maxLen_mem _ (List.mem_map_of_mem _ h)
  refine ⟨?_, ?_, ?_, ?_, ?_⟩
  · rw [padTo_length]
    simp only [fileColWidth]
    omega
  · rw [padTo_length]
    simp only [funcColWidth]
    omega
  · rw [padTo_length]
    simp only [safeColWidth]
    omega
  · simp
  · rw [padTo_length]

theorem c5_widths_witness :
    (padTo (fileColWidth [c5Row]) c5Row.1).length = fileColWidth [c5Row] ∧
    (padTo (funcColWidth [c5Row]) c5Row.2.1).length = funcColWidth [c5Row] ∧
    (padTo (safeColWidth [c5Row]) c5Row.2.2).length = safeColWidth [c5Row] ∧
    (List.replicate (fileColWidth [c5Row]) '-').length = fileColWidth [c5Row] ∧
    (padTo (fileColWidth [c5Row]) "File Path".toList).length =
      max (fileColWidth [c5Row]) ("File Path".toList).length :=
  c5_widths [c5Row] c5Row (List.mem_singleton.mpr rfl)

/-- C6: the counterpart name is the collected name with the literal
substring `"_unchecked"` removed at every (left-to-right,
non-overlapping) position where it occurs — not only as a suffix and not
only the first occurrence; in particular a mid-name occurrence is removed
just like a suffix occurrence. -/
theorem c6_counterpart_strips_everywhere :
    (∀ name : List Char, removeMarker name = specStrip name) ∧
    removeMarker "do_unchecked_get_unchecked".toList = "do_get".toList :=
  ⟨removeMarker_eq_specStrip, by decide⟩

/-- C7: resolution of an entry depends only on the owning file — two file
trees agreeing at the entry's path resolve it identically — and when the
owning file declares no counterpart at top level the result is the
`"None"` sentinel, whatever any other file of the tree declares. -/
theorem c7_scope (fs fs' : FileSys) (p : Path) (name : List Char)
    (hagree : fs p = fs' p) :
    checkEntry fs (p, name) = checkEntry fs' (p, name) ∧
    (∀ file, fs p = .parsed file →
      removeMarker name ∉ topLevelDeclNames file →
      checkEntry fs (p, name) = .ok (p, name, noneSentinel)) := by
  constructor
  · simp only [checkEntry, hagree]
  · intro file hf hd
    rw [checkEntry_parsed fs p name file hf]
    cases hb : declaresTopLevel (removeMarker name) file
    · simp
    · exact absurd ((declaresTopLevel_iff _ _).mp hb) hd

theorem c7_scope_witness :
    checkEntry c7Fs ("a.rs".toList, "push_unchecked".toList) =
      checkEntry c7FsB ("a.rs".toList, "push_unchecked".toList) ∧
    checkEntry c7FsB ("a.rs".toList, "push_unchecked".toList) =
      .ok ("a.rs".toList, "push_unchecked".toList, noneSentinel) :=
  ⟨(c7_scope c7Fs c7FsB "a.rs".toList "push_unchecked".toList rfl).1,
   (c7_scope c7FsB c7FsB "a.rs".toList "push_unchecked".toList rfl).2
     c7FileA rfl (by decide)⟩

/-- C8: the collection aggregate never holds two identical
`(path, name)` entries, however often the same declaration is visited or
the same name re-defined. -/
theorem c8_uniqueness (fs : FileSys) (paths : List Path)
    (entries : List Entry)
    (h : processDirectory fs paths [] = .ok entries) : entries.Nodup :=
  processDirectory_nodup fs paths [] entries h List.nodup_nil

theorem c8_uniqueness_witness :
    ([("d.rs".toList, "dup_unchecked".toList)] : List Entry).Nodup :=
  c8_uniqueness c8Fs ["d.rs".toList, "d.rs".toList]
    [("d.rs".toList, "dup_unchecked".toList)] rfl

/-- C9: a report is produced only when every processed file was read and
parsed successfully, and a read or parse failure on any processed file
makes the whole run fail with a propagated error — the report, built only
in the success branch after both phases, is then never created. -/
theorem c9_atomic_failure (fs : FileSys) (paths : List Path) :
    (∀ rep, mainRun fs paths = .ok rep →
      ∀ p ∈ paths, ∃ file, fs p = .parsed file) ∧
    (∀ p ∈ paths, (∀ file, fs p ≠ .parsed file) →
      ∃ e, mainRun fs paths = .error e) := by
  constructor
  · intro rep h p hp
    cases h1 : processDirectory fs paths [] with
    | error e =>
      simp only [mainRun, h1] at h
      cases h
    | ok entries => exact processDirectory_ok_reads fs paths [] entries h1 p hp
  · intro p hp hfail
    obtain ⟨e, he⟩ := processDirectory_error_of_fail fs paths [] p hp hfail
    exact ⟨e, by simp only [mainRun, he]⟩

theorem c9_atomic_failure_witness :
    (∃ e, mainRun c9Fs ["ok.rs".toList, "bad.rs".toList] = .error e) ∧
    (∃ file, c9Fs "ok.rs".toList = .parsed file) :=
  ⟨(c9_atomic_failure c9Fs ["ok.rs".toList, "bad.rs".toList]).2
      "bad.rs".toList (by decide)
      (fun file h => by
        rw [show c9Fs "bad.rs".toList = .readFail from rfl] at h
        cases h),
   (c9_atomic_failure c9Fs ["ok.rs".toList]).1 (renderReport []) rfl
      "ok.rs".toList (by decide)⟩

/-- C10: a top-level free function whose name contains `"unchecked"` but
not `"_unchecked"` is collected, and is resolved as paired with itself:
marker removal leaves the name unchanged and the declaration itself is
the top-level match, so the emitted row carries the original name, never
the `"None"` sentinel. -/
theorem c10_self_pair (fs : FileSys) (paths : List Path)
    (entries : List Entry) (rows : List Row) (p : Path)
    (name : List Char) (file : Items)
    (hdir : processDirectory fs paths [] = .ok entries)
    (hres : checkForSafeVersions fs entries [] = .ok rows)
    (hp : p ∈ paths) (hfile : fs p = .parsed file)
    (hfn : hasTopLevelFn name file = true)
    (hmark : containsSub visitMarker name = true)
    (hnostrip : containsSub stripMarker name = false) :
    (p, name) ∈ entries ∧ (p, name, name) ∈ rows := by
  have htop : name ∈ topLevelDeclNames file := hasTopLevelFn_top name file hfn
  have hdecl : name ∈ declItems file := topLevel_subset_decl file name htop
  have hent : (p, name) ∈ entries := by
    rw [processDirectory_ok_mem fs paths [] entries hdir (p, name)]
    exact Or.inr ⟨p, hp, file, hfile, rfl,
      (mem_visitItems_iff file name).mpr ⟨hdecl, hmark⟩⟩
  refine ⟨hent, ?_⟩
  obtain ⟨r, hr, hrows⟩ :=
    checkForSafeVersions_mem fs entries [] rows hres (p, name) hent
  have hrm : removeMarker name = name := removeMarker_of_not_contains name hnostrip
  have hck : checkEntry fs (p, name) = .ok (p, name, name) := by
    rw [checkEntry_parsed fs p name file hfile, hrm,
      (declaresTopLevel_iff name file).mpr htop]
    simp
  rw [hck] at hr
  cases hr
  exact hrows

theorem c10_self_pair_witness :
    ("u.rs".toList, "unchecked_get".toList) ∈
      ([("u.rs".toList, "unchecked_get".toList)] : List Entry) ∧
    ("u.rs".toList, "unchecked_get".toList, "unchecked_get".toList) ∈
      ([("u.rs".toList, "unchecked_get".toList, "unchecked_get".toList)] :
        List Row) :=
  c10_self_pair c10Fs ["u.rs".toList]
    [("u.rs".toList, "unchecked_get".toList)]
    [("u.rs".toList, "unchecked_get".toList, "unchecked_get".toList)]
    "u.rs".toList "unchecked_get".toList c10File rfl rfl (by decide) rfl
    (by decide) (by decide) (by decide)

end ScanUnchecked
